import Mathlib

/-!
Shallow embedding of the population-dashboard data pipeline
(`streamlit_app_population_dashboard.py` and
`streamlit_app_population_dashboard_plotly_bubblemap.py`).

Region names and raw cell contents are modelled as lists of characters
(`Name`); missing values (pandas `NaN`) are `Option`-`none`; fallible
operations (vectorised `pd.to_datetime`, which raises on an out-of-range
month) return `Except`.  Floating-point cell values are modelled as exact
rationals; Python `float()` on ordinary decimal numerals is modelled by
`parseFloat` below.
-/

/-- Strings from the source are embedded as lists of characters. -/
abbrev Name := List Char

/-- Convert a Lean string literal into the `Name` embedding. -/
def strC (s : String) : Name := s.data

/-- The whitespace characters removed by Python `str.strip()`. -/
def isSpaceChar (c : Char) : Bool :=
  c == ' ' || c == '\t' || c == '\n' || c == '\r' || c == '\x0b' || c == '\x0c'

/-- Remove trailing whitespace, structurally (right half of `str.strip()`). -/
def trimRight : Name → Name
  | [] => []
  | c :: cs =>
    match trimRight cs with
    | [] => if isSpaceChar c then [] else [c]
    | r => c :: r

/-- Python `str.strip()`: drop leading and trailing whitespace. -/
def trim (l : Name) : Name := trimRight (l.dropWhile isSpaceChar)

/-- Python `str.startswith`. -/
def beginsWith : Name → Name → Bool
  | [], _ => true
  | _ :: _, [] => false
  | a :: as, b :: bs => a == b && beginsWith as bs

/-- Python `str.replace(old, new, 1)`: replace the first occurrence only. -/
def replaceFirst (old new : Name) : Name → Name
  | [] => if beginsWith old [] then new else []
  | c :: cs =>
    if beginsWith old (c :: cs) then new ++ List.drop old.length (c :: cs)
    else c :: replaceFirst old new cs

/-- The deprecated province name 전라북도 (source line 56). -/
def depName : Name := strC "전라북도"

/-- The canonical replacement 전북특별자치도 (source line 57). -/
def canonName : Name := strC "전북특별자치도"

/-- `standardize_region` from `streamlit_app_population_dashboard.py`
lines 52-58: `None` propagates; otherwise strip whitespace and, when the
result starts with the deprecated name, replace its first occurrence with
the canonical name. -/
def standardize_region : Option Name → Option Name
  | none => none
  | some s =>
    let t := trim s
    if beginsWith depName t then some (replaceFirst depName canonName t)
    else some t

/-- First character (if any) is not whitespace. -/
def headOK : Name → Bool
  | [] => true
  | c :: _ => !isSpaceChar c

/-- Last character (if any) is not whitespace. -/
def lastOK : Name → Bool
  | [] => true
  | [c] => !isSpaceChar c
  | _ :: c :: cs => lastOK (c :: cs)

/-! ## The header grammar (source line 62)

`^(\d{4})년(\d{1,2})월_(전월인구수|당월인구수|인구증감)_(남자인구수|여자인구수|계)$`
-/

/-- The three indicator labels, in the order of the regex alternation. -/
def measureLabels : List Name := [strC "전월인구수", strC "당월인구수", strC "인구증감"]

/-- The three sex labels, in the order of the regex alternation. -/
def sexLabels : List Name := [strC "남자인구수", strC "여자인구수", strC "계"]

/-- Digits of a matched group to the number `int(...)` produces. -/
def digitsToNat (ds : List Char) : Nat :=
  ds.foldl (fun a c => 10 * a + (c.toNat - '0'.toNat)) 0

/-- Match `(\d{1,2})월` at the front (with the regex's backtracking
semantics: one digit or two digits, each followed by `월`). -/
def monthSplit : Name → Option (Nat × Name)
  | d :: '월' :: r => if d.isDigit then some (digitsToNat [d], r) else none
  | d :: d2 :: '월' :: r =>
    if d.isDigit && d2.isDigit then some (digitsToNat [d, d2], r) else none
  | _ => none

/-- Strip a literal from the front of a list, if it is there. -/
def stripFront (p s : Name) : Option Name :=
  if beginsWith p s then some (s.drop p.length) else none

/-- `pattern.match(c)` of source lines 62-68: a full match of the header
grammar yields `(year, month, measure, sex)` as `int`/`int`/label/label. -/
def headerMatch : Name → Option (Nat × Nat × Name × Name)
  | y1 :: y2 :: y3 :: y4 :: '년' :: rest =>
    if y1.isDigit && y2.isDigit && y3.isDigit && y4.isDigit then
      match monthSplit rest with
      | some (m, '_' :: rest2) =>
        match measureLabels.filterMap
            (fun lab => (stripFront (lab ++ ['_']) rest2).map (fun r => (lab, r))) with
        | (lab, sexPart) :: _ =>
          if sexLabels.contains sexPart then
            some (digitsToNat [y1, y2, y3, y4], m, lab, sexPart)
          else none
        | [] => none
      | _ => none
    else none
  | _ => none

/-! ## Numeric coercion (`to_num`, source lines 77-88) -/

/-- Read an optional `+`/`-` sign. -/
def parseSign : Name → (Int × Name)
  | '+' :: r => (1, r)
  | '-' :: r => (-1, r)
  | r => (1, r)

/-- Split a leading run of decimal digits. -/
def splitDigits (s : Name) : List Char × Name :=
  (s.takeWhile Char.isDigit, s.dropWhile Char.isDigit)

/-- The optional exponent part and final assembly of the numeral. -/
def parseExpPart (sg : Int) (ip fp : List Char) : Name → Option Rat
  | [] => some ((sg : Rat) * ((digitsToNat ip : Rat)
      + (digitsToNat fp : Rat) / ((10 : Rat) ^ fp.length)))
  | e :: r2 =>
    if e == 'e' || e == 'E' then
      match parseSign r2 with
      | (esg, r3) =>
        match splitDigits r3 with
        | (ed, r4) =>
          if ed = [] ∨ r4 ≠ [] then none
          else some ((sg : Rat) * ((digitsToNat ip : Rat)
              + (digitsToNat fp : Rat) / ((10 : Rat) ^ fp.length))
              * (10 : Rat) ^ (esg * (digitsToNat ed : Int)))
    else none

/-- Model of Python `float()` on ordinary decimal numerals: optional sign,
integer digits, optional fraction, optional exponent.  Inputs `float()`
rejects give `none`; the special spellings `nan`/`inf` (which denote
missing or non-finite values) are also mapped to `none`, matching how the
pipeline treats them (as pandas missing values). -/
def parseFloat (s : Name) : Option Rat :=
  match parseSign s with
  | (sg, r) =>
    match splitDigits r with
    | (ip, r1) =>
      match r1 with
      | '.' :: r2 =>
        match splitDigits r2 with
        | (fp, r3) => if ip = [] ∧ fp = [] then none else parseExpPart sg ip fp r3
      | _ => if ip = [] then none else parseExpPart sg ip [] r1

/-- `to_num` from source lines 77-86: `NaN` propagates; the cell text is
stripped, all `,` characters removed; an empty remainder or a remainder
`float()` rejects gives `NaN`, otherwise the parsed number. -/
def to_num : Option Name → Option Rat
  | none => none
  | some x =>
    let s := (trim x).filter (fun c => !(c == ','))
    if s = [] then none else parseFloat s

/-! ## The wide table, dates and the reshape (source lines 60-91) -/

/-- A calendar date as produced by `pd.to_datetime("YYYY-MM-01")`. -/
structure MDate where
  year : Nat
  month : Nat
  day : Nat
deriving DecidableEq

/-- One row of the raw wide CSV: the 행정구역 cell and the value cells,
aligned with the table's value-column names. -/
structure WideRow where
  region : Option Name
  cells : List (Option Name)

/-- The raw wide CSV: the value-column names (everything except the
행정구역 columns) and the rows. -/
structure WideTable where
  columns : List Name
  rows : List WideRow

/-- The metadata extracted from one matching column (source lines 63-69):
its position among the value columns plus the parsed header fields. -/
structure ColMeta where
  idx : Nat
  year : Nat
  month : Nat
  measure : Name
  sex : Name
deriving DecidableEq

/-- `meta` of source lines 63-69: the matching columns, in order, with the
parsed `(year, month, measure, sex)` fields. -/
def metaOf (w : WideTable) : List ColMeta :=
  w.columns.enum.filterMap fun ic =>
    (headerMatch ic.2).map fun r => ⟨ic.1, r.1, r.2.1, r.2.2.1, r.2.2.2⟩

/-- One melted row before date construction and numeric coercion:
`melt` + `merge` of source lines 70-75 (column-major: one block per
matched column, one entry per input row). -/
structure PreRow where
  region : Option Name
  year : Nat
  month : Nat
  measure : Name
  sex : Name
  raw : Option Name
deriving DecidableEq

/-- The melt of source lines 70-75, with the standardized region (line 60)
carried along.  `pandas.melt` stacks the value columns in order; each block
lists the input rows in order. -/
def meltRows (w : WideTable) : List PreRow :=
  (metaOf w).flatMap fun m =>
    w.rows.map fun row =>
      ⟨standardize_region row.region, m.year, m.month, m.measure, m.sex,
        row.cells.getD m.idx none⟩

/-- `pd.to_datetime(f"{year}-{month:02d}-01")` of source line 89: an
out-of-range month makes `pd.to_datetime` raise (its default is
`errors="raise"`), modelled as `Except.error`; otherwise the first of the
month.  (The `pandas.Timestamp` year range is not modelled.) -/
def to_datetime (y m : Nat) : Except Name MDate :=
  if 1 ≤ m ∧ m ≤ 12 then .ok ⟨y, m, 1⟩ else .error (strC "invalid month")

/-- One long row of the tidy output (columns of source line 90):
`행정구역_표준, date, measure, sex, value`. -/
structure LongRow where
  region : Option Name
  date : MDate
  measure : Name
  sex : Name
  value : Option Rat
deriving DecidableEq

/-- Numeric coercion (line 88) and date construction (line 89) for one
melted row. -/
def convertRow (p : PreRow) : Except Name LongRow :=
  (to_datetime p.year p.month).map fun d =>
    ⟨p.region, d, p.measure, p.sex, to_num p.raw⟩

/-- Vectorised conversion: every melted row is converted, and a failure
anywhere (as with `pd.to_datetime` over a whole column) fails the whole
operation. -/
def mapExcept (f : PreRow → Except Name LongRow) :
    List PreRow → Except Name (List LongRow)
  | [] => .ok []
  | x :: xs =>
    match f x with
    | .error e => .error e
    | .ok y =>
      match mapExcept f xs with
      | .error e => .error e
      | .ok ys => .ok (y :: ys)

/-- The grouping key of source line 91: `(행정구역_표준, date, measure, sex)`. -/
def rowKey (r : LongRow) : Option Name × MDate × Name × Name :=
  (r.region, r.date, r.measure, r.sex)

/-- `max` over nullable values as pandas `GroupBy.max` combines them:
`NaN` is skipped; the group's max is `NaN` only when every value is. -/
def optMax : Option Rat → Option Rat → Option Rat
  | none, y => y
  | some a, none => some a
  | some a, some b => some (max a b)

/-- Fold one row into the accumulated groups: merge into the existing
group with the same key (taking the max of the values) or start a new
group. -/
def insertRow (acc : List LongRow) (r : LongRow) : List LongRow :=
  if acc.any (fun a => decide (rowKey a = rowKey r)) then
    acc.map fun a =>
      if rowKey a = rowKey r then { a with value := optMax a.value r.value } else a
  else acc ++ [r]

/-- `groupby(["행정구역_표준","date","measure","sex"])["value"].max()` of
source line 91: rows with a missing group key (a null region) are dropped
(pandas `groupby` default `dropna=True`), then one row per key remains with
the max of its values. -/
def groupbyMax (l : List LongRow) : List LongRow :=
  (l.filter fun r => r.region.isSome).foldl insertRow []

/-- The whole wide-to-long conversion block, source lines 60-91. -/
def normalizeWide (w : WideTable) : Except Name (List LongRow) :=
  match mapExcept convertRow (meltRows w) with
  | .ok rows => .ok (groupbyMax rows)
  | .error e => .error e

/-! ## The national time-series total (dashboard line 134, bubble-map
line 146): `dff.groupby("date", as_index=False)["value"].sum()`.

Pandas `GroupBy.sum` skips `NaN` and, with its default `min_count=0`,
returns `0.0` — not `NaN` — for a group whose values are all `NaN`. -/

/-- The distinct dates of a long table, each listed once. -/
def distinctDates (l : List LongRow) : List MDate :=
  (l.map LongRow.date).dedup

/-- The national total per date: the sum of the non-null values of the
group (always a present number, `0` for an all-null group). -/
def groupSumByDate (l : List LongRow) : List (MDate × Option Rat) :=
  (distinctDates l).map fun d =>
    (d, some (((l.filter fun r => r.date = d).filterMap LongRow.value).sum))

/-! ## The centroid loader's encoding chain
(`streamlit_app_population_dashboard_plotly_bubblemap.py` lines 19-28) -/

/-- The text encodings `load_centroids` attempts, as an enumeration. -/
inductive Enc
  | utf8sig
  | utf8
  | cp949
  | euckr
deriving DecidableEq

/-- The fallback chain of source line 21:
`("utf-8-sig", "utf-8", "cp949", "euc-kr")`. -/
def encodingChain : List Enc := [.utf8sig, .utf8, .cp949, .euckr]

/-- The `for`/`try`/`break` loop of source lines 21-26: attempt each
encoding in order; keep the first successful parse; `none` when all fail.
The file-plus-`read_csv` pair is abstracted as a function from the
attempted encoding to an optional parsed table. -/
def tryRead {α : Type} (read : Enc → Option α) : List Enc → Option α
  | [] => none
  | e :: rest =>
    match read e with
    | some t => some t
    | none => tryRead read rest

/-- The error message of source line 28. -/
def centroidsEncodingError : Name :=
  strC "centroids csv를 읽지 못했습니다. 인코딩을 확인해주세요."

/-- The reading stage of `load_centroids` (source lines 19-28): the first
encoding of the chain that parses wins; when none parses, the loader
raises `ValueError` with an encoding-related message instead of returning
a table. -/
def load_centroids_read {α : Type} (read : Enc → Option α) : Except Name α :=
  match tryRead read encodingChain with
  | some t => .ok t
  | none => .error centroidsEncodingError

/-! ## Concrete tables used by the theorems below -/

/-- A wide table with one region row `A` and exactly one value column that
matches the header grammar, cell value `"1,234"`. -/
def wideC1 : WideTable :=
  ⟨[strC "2024년3월_인구증감_계"], [⟨some (strC "A"), [some (strC "1,234")]⟩]⟩

/-- A wide table whose two rows reshape to the same group key with values
`10` and `20`. -/
def wideC2 : WideTable :=
  ⟨[strC "2024년3월_인구증감_계"],
    [⟨some (strC "A"), [some (strC "10")]⟩, ⟨some (strC "A"), [some (strC "20")]⟩]⟩

/-- A long table whose single date group carries only a null value. -/
def longAllNull : List LongRow :=
  [⟨some (strC "A"), ⟨2024, 3, 1⟩, strC "인구증감", strC "계", none⟩]

/-- A wide table whose only column has an out-of-range month (13). -/
def wideC6 : WideTable :=
  ⟨[strC "2024년13월_인구증감_계"], [⟨some (strC "A"), [some (strC "5")]⟩]⟩

/-- A wide table with only non-matching value columns. -/
def wideC7 : WideTable :=
  ⟨[strC "notes", strC "2024년3월_기타_계"],
    [⟨some (strC "A"), [some (strC "x"), some (strC "7")]⟩]⟩

/-- Append one extra value column named `c`, its per-row cell given by
`f`. -/
def appendCol (w : WideTable) (c : Name) (f : WideRow → Option Name) : WideTable :=
  ⟨w.columns ++ [c], w.rows.map fun row => ⟨row.region, row.cells ++ [f row]⟩⟩

/-! # Theorems -/

/-! ## Trimming and the standardizer -/

theorem headOK_dropWhile (l : Name) : headOK (l.dropWhile isSpaceChar) = true := by
  induction l with
  | nil => rfl
  | cons c cs ih =>
    cases h : isSpaceChar c with
    | true => simpa [List.dropWhile_cons, h] using ih
    | false => simp [List.dropWhile_cons, h, headOK]

theorem dropWhile_self_of_headOK {l : Name} (h : headOK l = true) :
    l.dropWhile isSpaceChar = l := by
  cases l with
  | nil => rfl
  | cons c cs =>
    simp only [headOK, Bool.not_eq_true'] at h
    simp [List.dropWhile_cons, h]

theorem trimRight_shape (c : Char) (cs : Name) :
    trimRight (c :: cs) = [] ∨ ∃ r, trimRight (c :: cs) = c :: r := by
  rw [trimRight]
  cases h : trimRight cs with
  | nil =>
    by_cases hc : isSpaceChar c = true
    · exact Or.inl (by simp [hc])
    · exact Or.inr ⟨[], by simp [hc]⟩
  | cons x xs => exact Or.inr ⟨x :: xs, rfl⟩

theorem headOK_trimRight {l : Name} (h : headOK l = true) :
    headOK (trimRight l) = true := by
  cases l with
  | nil => rfl
  | cons c cs =>
    rcases trimRight_shape c cs with h1 | ⟨r, h1⟩ <;> rw [h1]
    · rfl
    · simpa [headOK] using h

theorem lastOK_trimRight (l : Name) : lastOK (trimRight l) = true := by
  induction l with
  | nil => rfl
  | cons c cs ih =>
    rw [trimRight]
    cases h : trimRight cs with
    | nil =>
      cases hc : isSpaceChar c with
      | true => simp [hc, lastOK]
      | false => simp [hc, lastOK]
    | cons x xs =>
      rw [h] at ih
      simpa [lastOK] using ih

theorem trimRight_self_of_lastOK : ∀ {l : Name}, lastOK l = true → trimRight l = l
  | [], _ => rfl
  | [c], h => by
    simp only [lastOK, Bool.not_eq_true'] at h
    simp [trimRight, h]
  | c :: x :: xs, h => by
    have h' : lastOK (x :: xs) = true := by simpa [lastOK] using h
    have hx := trimRight_self_of_lastOK h'
    rw [trimRight, hx]

theorem trim_eq_self {l : Name} (h1 : headOK l = true) (h2 : lastOK l = true) :
    trim l = l := by
  rw [trim, dropWhile_self_of_headOK h1, trimRight_self_of_lastOK h2]

theorem headOK_trim (l : Name) : headOK (trim l) = true :=
  headOK_trimRight (headOK_dropWhile l)

theorem lastOK_trim (l : Name) : lastOK (trim l) = true := lastOK_trimRight _

theorem trim_trim (l : Name) : trim (trim l) = trim l :=
  trim_eq_self (headOK_trim l) (lastOK_trim l)

theorem beginsWith_append_drop : ∀ (p s : Name), beginsWith p s = true →
    p ++ s.drop p.length = s
  | [], s, _ => by simp
  | _ :: _, [], h => by simp [beginsWith] at h
  | a :: as, b :: bs, h => by
    simp only [beginsWith, Bool.and_eq_true, beq_iff_eq] at h
    obtain ⟨hab, h2⟩ := h
    subst hab
    have := beginsWith_append_drop as bs h2
    simpa [List.length_cons, List.drop_succ_cons] using this

theorem replaceFirst_of_beginsWith {p n : Name} :
    ∀ {s : Name}, beginsWith p s = true → replaceFirst p n s = n ++ s.drop p.length
  | [], h => by simp [replaceFirst, h]
  | c :: cs, h => by simp [replaceFirst, h]

theorem lastOK_append_cons : ∀ (xs : Name) (y : Char) (ys : Name),
    lastOK (xs ++ y :: ys) = lastOK (y :: ys)
  | [], _, _ => rfl
  | [c], y, ys => by simp [lastOK]
  | c :: c2 :: cs, y, ys => by
    have := lastOK_append_cons (c2 :: cs) y ys
    simpa [lastOK] using this

theorem headOK_canon_append (rest : Name) : headOK (canonName ++ rest) = true := rfl

theorem beginsWith_dep_canon_append (rest : Name) :
    beginsWith depName (canonName ++ rest) = false := rfl

theorem lastOK_canon_append {rest : Name} (h : lastOK (depName ++ rest) = true) :
    lastOK (canonName ++ rest) = true := by
  cases rest with
  | nil => rfl
  | cons y ys =>
    rw [lastOK_append_cons]
    rw [lastOK_append_cons] at h
    exact h

/-- C4: the region standardizer maps null to null; a non-null name is
first trimmed; if and only if the trimmed name begins with the deprecated
name 전라북도, only the first occurrence of that name is replaced by the
canonical 전북특별자치도, leaving the rest of the string intact; every other
name is returned equal to its trimmed form. -/
theorem standardize_region_contract :
    standardize_region none = none ∧
    (∀ s : Name, beginsWith depName (trim s) = true →
      standardize_region (some s) = some (replaceFirst depName canonName (trim s)) ∧
      replaceFirst depName canonName (trim s)
        = canonName ++ (trim s).drop depName.length) ∧
    (∀ s : Name, beginsWith depName (trim s) = false →
      standardize_region (some s) = some (trim s)) := by
  refine ⟨rfl, fun s h => ⟨?_, ?_⟩, fun s h => ?_⟩
  · simp [standardize_region, h]
  · exact replaceFirst_of_beginsWith h
  · simp [standardize_region, h]

theorem standardize_region_contract_witness :
    beginsWith depName (trim (strC "전라북도 전주시")) = true ∧
    standardize_region (some (strC "전라북도 전주시")) = some (strC "전북특별자치도 전주시") ∧
    beginsWith depName (trim (strC "서울특별시")) = false ∧
    standardize_region (some (strC "서울특별시")) = some (strC "서울특별시") := by
  refine ⟨by decide, ?_, by decide, ?_⟩
  · rw [(standardize_region_contract.2.1 (strC "전라북도 전주시") (by decide)).1]
    decide
  · rw [standardize_region_contract.2.2 (strC "서울특별시") (by decide)]
    decide

/-- C10: the region standardizer is idempotent: applying it twice equals
applying it once, for null and for every string. -/
theorem standardize_region_idempotent (x : Option Name) :
    standardize_region (standardize_region x) = standardize_region x := by
  cases x with
  | none => rfl
  | some s =>
    cases hb : beginsWith depName (trim s) with
    | false =>
      have h1 : standardize_region (some s) = some (trim s) := by
        simp [standardize_region, hb]
      rw [h1]
      simp [standardize_region, trim_trim s, hb]
    | true =>
      have h1 : standardize_region (some s)
          = some (canonName ++ (trim s).drop depName.length) := by
        simp [standardize_region, hb, replaceFirst_of_beginsWith hb]
      set rest := (trim s).drop depName.length with hrest
      have hsplit : depName ++ rest = trim s := beginsWith_append_drop _ _ hb
      have hlast : lastOK (canonName ++ rest) = true := by
        refine lastOK_canon_append ?_
        rw [hsplit]
        exact lastOK_trim s
      have hhead : headOK (canonName ++ rest) = true := headOK_canon_append rest
      have htrim : trim (canonName ++ rest) = canonName ++ rest :=
        trim_eq_self hhead hlast
      rw [h1]
      simp [standardize_region, htrim, beginsWith_dep_canon_append rest]

/-! ## The round-trip example and the numeric coercion contract -/

unseal Rat.mul Rat.add Rat.inv in
/-- C1: normalizing a wide table with exactly one value column matching
the header grammar — region `A`, year 2024, month 3, indicator 인구증감,
sex 계, cell value `"1,234"` — yields exactly one long row
`(A, 2024-03-01, 인구증감, 계, 1234.0)`. -/
theorem normalize_single_column_roundtrip :
    normalizeWide wideC1
      = .ok [⟨some (strC "A"), ⟨2024, 3, 1⟩, strC "인구증감", strC "계", some 1234⟩] := by
  rfl

/-- C5: numeric coercion is total and never raises: a null input yields
null, an input blank after trimming yields null, an input whose
comma-stripped trimmed form `float()` rejects yields null, and otherwise
the comma-stripped trimmed form's parsed value is returned. -/
theorem to_num_contract :
    to_num none = none ∧
    (∀ s : Name, trim s = [] → to_num (some s) = none) ∧
    (∀ s : Name, parseFloat ((trim s).filter (fun c => !(c == ','))) = none →
      to_num (some s) = none) ∧
    (∀ (s : Name) (q : Rat),
      parseFloat ((trim s).filter (fun c => !(c == ','))) = some q →
      to_num (some s) = some q) := by
  refine ⟨rfl, fun s h => ?_, fun s h => ?_, fun s q h => ?_⟩
  · simp [to_num, h]
  · by_cases he : (trim s).filter (fun c => !(c == ',')) = []
    · simp [to_num, he]
    · simp [to_num, he, h]
  · by_cases he : (trim s).filter (fun c => !(c == ',')) = []
    · rw [he] at h
      simp [parseFloat, splitDigits, parseSign] at h
    · simp [to_num, he, h]

unseal Rat.mul Rat.add Rat.inv in
theorem to_num_contract_witness :
    trim (strC "  ") = [] ∧
    to_num (some (strC "  ")) = none ∧
    parseFloat ((trim (strC "abc")).filter (fun c => !(c == ','))) = none ∧
    to_num (some (strC "abc")) = none ∧
    parseFloat ((trim (strC " 1,234 ")).filter (fun c => !(c == ','))) = some 1234 ∧
    to_num (some (strC " 1,234 ")) = some 1234 := by
  refine ⟨by decide, to_num_contract.2.1 (strC "  ") (by decide),
    by decide, to_num_contract.2.2.1 (strC "abc") (by decide),
    by decide, to_num_contract.2.2.2 (strC " 1,234 ") 1234 (by decide)⟩

/-! ## The encoding fallback chain of the centroid loader -/

theorem tryRead_all_none {α : Type} {read : Enc → Option α} :
    ∀ {chain : List Enc}, (∀ e ∈ chain, read e = none) → tryRead read chain = none
  | [], _ => rfl
  | e :: rest, h => by
    have he := h e (List.mem_cons_self e rest)
    have hr := tryRead_all_none (fun x hx => h x (List.mem_cons_of_mem e hx))
    simp [tryRead, he, hr]

theorem tryRead_some {α : Type} {read : Enc → Option α} :
    ∀ {chain : List Enc} {t : α}, tryRead read chain = some t →
      ∃ i : Fin chain.length, read (chain.get i) = some t ∧
        ∀ j : Fin chain.length, j < i → read (chain.get j) = none
  | [], t, h => by simp [tryRead] at h
  | e :: rest, t, h => by
    cases he : read e with
    | some u =>
      rw [tryRead, he] at h
      refine ⟨⟨0, by simp⟩, ?_, ?_⟩
      · simpa [he] using h
      · intro j hj
        exact absurd hj (by simp [Fin.lt_def])
    | none =>
      rw [tryRead, he] at h
      obtain ⟨i, hi, hprev⟩ := tryRead_some h
      refine ⟨i.succ, by simpa using hi, ?_⟩
      intro j hj
      match j with
      | ⟨0, _⟩ => simpa using he
      | ⟨k + 1, hk⟩ =>
        have : (⟨k, Nat.lt_of_succ_lt_succ hk⟩ : Fin rest.length) < i := by
          simpa [Fin.lt_def] using hj
        simpa using hprev ⟨k, Nat.lt_of_succ_lt_succ hk⟩ this

/-- C9: the centroid loader tries the fixed encoding chain
`utf-8-sig, utf-8, cp949, euc-kr` (UTF-8 variants first, then legacy
Korean encodings) in order and returns the first successful parse; when
every encoding fails it raises the user-visible "check the encoding"
error instead of returning a table. -/
theorem load_centroids_encoding_chain {α : Type} (read : Enc → Option α) :
    encodingChain = [.utf8sig, .utf8, .cp949, .euckr] ∧
    ((∀ e ∈ encodingChain, read e = none) →
      load_centroids_read read = .error centroidsEncodingError) ∧
    (∀ t : α, load_centroids_read read = .ok t →
      ∃ i : Fin encodingChain.length, read (encodingChain.get i) = some t ∧
        ∀ j : Fin encodingChain.length, j < i → read (encodingChain.get j) = none) := by
  refine ⟨rfl, fun h => ?_, fun t h => ?_⟩
  · rw [load_centroids_read, tryRead_all_none h]
  · rw [load_centroids_read] at h
    cases htr : tryRead read encodingChain with
    | none => rw [htr] at h; exact absurd h (by simp)
    | some u =>
      rw [htr] at h
      have : u = t := by simpa using h
      subst this
      exact tryRead_some htr

theorem load_centroids_encoding_chain_witness :
    (∀ e ∈ encodingChain, (fun _ : Enc => (none : Option Nat)) e = none) ∧
    load_centroids_read (fun _ : Enc => (none : Option Nat))
      = .error centroidsEncodingError ∧
    load_centroids_read (fun e : Enc => if e = .cp949 then some 7 else none)
      = .ok 7 ∧
    (∃ i : Fin encodingChain.length,
      (fun e : Enc => if e = .cp949 then some 7 else none) (encodingChain.get i)
        = some 7 ∧
      ∀ j : Fin encodingChain.length, j < i →
        (fun e : Enc => if e = .cp949 then some 7 else none) (encodingChain.get j)
          = none) := by
  refine ⟨fun e _ => rfl, ?_, by rfl, ?_⟩
  · exact (load_centroids_encoding_chain (fun _ : Enc => (none : Option Nat))).2.1
      (fun e _ => rfl)
  · exact (load_centroids_encoding_chain
      (fun e : Enc => if e = .cp949 then some 7 else none)).2.2 7 (by rfl)

/-! ## Vectorised conversion: failure and membership -/

theorem mapExcept_error_of_mem {f : PreRow → Except Name LongRow} :
    ∀ {l : List PreRow} {p : PreRow}, p ∈ l → (∃ e0, f p = .error e0) →
      ∃ e, mapExcept f l = .error e
  | x :: xs, p, hmem, ⟨e0, hf⟩ => by
    rcases List.mem_cons.mp hmem with h | h
    · subst h
      exact ⟨e0, by simp [mapExcept, hf]⟩
    · cases hx : f x with
      | error e1 => exact ⟨e1, by simp [mapExcept, hx]⟩
      | ok y =>
        obtain ⟨e, he⟩ := mapExcept_error_of_mem h ⟨e0, hf⟩
        exact ⟨e, by simp [mapExcept, hx, he]⟩

theorem mapExcept_ok_mem {f : PreRow → Except Name LongRow} :
    ∀ {l : List PreRow} {ys : List LongRow}, mapExcept f l = .ok ys →
      ∀ y ∈ ys, ∃ x ∈ l, f x = .ok y
  | [], ys, h => by
    intro y hy
    simp only [mapExcept] at h
    cases h
    simp at hy
  | x :: xs, ys, h => by
    intro y hy
    cases hx : f x with
    | error e => simp [mapExcept, hx] at h
    | ok y0 =>
      cases hxs : mapExcept f xs with
      | error e => simp [mapExcept, hx, hxs] at h
      | ok ys0 =>
        simp only [mapExcept, hx, hxs] at h
        have : y0 :: ys0 = ys := by simpa using h
        subst this
        rcases List.mem_cons.mp hy with h1 | h1
        · exact ⟨x, List.mem_cons_self x xs, by rw [hx, h1]⟩
        · obtain ⟨z, hz, hfz⟩ := mapExcept_ok_mem hxs y h1
          exact ⟨z, List.mem_cons_of_mem x hz, hfz⟩

theorem convertRow_error_of_bad_month {p : PreRow}
    (h : ¬(1 ≤ p.month ∧ p.month ≤ 12)) :
    convertRow p = .error (strC "invalid month") := by
  rw [convertRow, to_datetime, if_neg h]
  rfl

theorem convertRow_day_one {p : PreRow} {y : LongRow} (h : convertRow p = .ok y) :
    y.date.day = 1 := by
  rw [convertRow, to_datetime] at h
  by_cases hm : 1 ≤ p.month ∧ p.month ≤ 12
  · rw [if_pos hm] at h
    simp only [Except.map] at h
    cases h
    rfl
  · rw [if_neg hm] at h
    exact absurd h (by simp [Except.map])

/-- C6 counterexample: the column `2024년13월_인구증감_계` does match the
header grammar (month 13), but the date construction then fails the
WHOLE normalization — `normalizeWide wideC6` is an error, so no long
table (with that row nulled or dropped) is returned, contrary to the
claim. -/
theorem month13_aborts_whole_normalization :
    headerMatch (strC "2024년13월_인구증감_계")
      = some (2024, 13, strC "인구증감", strC "계") ∧
    normalizeWide wideC6 = .error (strC "invalid month") ∧
    (normalizeWide wideC6).isOk = false := by
  exact ⟨by decide, by rfl, by rfl⟩

/-- C6 amended: a column name with an out-of-range month (e.g. 13) is
treated as matching by the header grammar, but the subsequent date
construction raises and aborts the whole normalization (there is no
per-row null/drop recovery). -/
theorem month13_matches_and_normalization_errors :
    headerMatch (strC "2024년13월_인구증감_계")
      = some (2024, 13, strC "인구증감", strC "계") ∧
    (∀ (w : WideTable) (p : PreRow), p ∈ meltRows w →
      ¬(1 ≤ p.month ∧ p.month ≤ 12) →
      ∃ e, normalizeWide w = .error e) := by
  refine ⟨by decide, fun w p hmem hbad => ?_⟩
  obtain ⟨e, he⟩ := mapExcept_error_of_mem hmem
    ⟨_, convertRow_error_of_bad_month hbad⟩
  exact ⟨e, by rw [normalizeWide, he]⟩

theorem month13_matches_and_normalization_errors_witness :
    (⟨standardize_region (some (strC "A")), 2024, 13, strC "인구증감", strC "계",
        some (strC "5")⟩ : PreRow) ∈ meltRows wideC6 ∧
    ¬(1 ≤ (13:Nat) ∧ (13:Nat) ≤ 12) ∧
    (∃ e, normalizeWide wideC6 = .error e) := by
  refine ⟨by decide, by decide, ?_⟩
  exact month13_matches_and_normalization_errors.2 wideC6
    ⟨standardize_region (some (strC "A")), 2024, 13, strC "인구증감", strC "계",
      some (strC "5")⟩
    (by decide) (by decide)

/-! ## Non-matching columns are dropped -/

theorem metaOf_idx_lt {w : WideTable} {m : ColMeta} (h : m ∈ metaOf w) :
    m.idx < w.columns.length := by
  rw [metaOf] at h
  obtain ⟨ic, hic, hm⟩ := List.mem_filterMap.mp h
  cases hh : headerMatch ic.2 with
  | none => rw [hh] at hm; cases hm
  | some r =>
    rw [hh] at hm
    simp only [Option.map_some'] at hm
    injection hm with hm2
    subst hm2
    have := List.fst_lt_add_of_mem_enumFrom (n := 0) (by simpa [List.enum] using hic)
    simpa using this

theorem metaOf_appendCol {w : WideTable} {c : Name} {f : WideRow → Option Name}
    (hc : headerMatch c = none) : metaOf (appendCol w c f) = metaOf w := by
  show ((w.columns ++ [c]).enum.filterMap _) = _
  rw [List.enum_append]
  rw [List.filterMap_append]
  have h2 : (List.enumFrom w.columns.length [c]).filterMap
      (fun ic => (headerMatch ic.2).map
        (fun r => (⟨ic.1, r.1, r.2.1, r.2.2.1, r.2.2.2⟩ : ColMeta))) = [] := by
    simp [List.enumFrom, hc]
  rw [h2, List.append_nil]
  rfl

theorem meltRows_appendCol {w : WideTable} {c : Name} {f : WideRow → Option Name}
    (hc : headerMatch c = none)
    (hwf : ∀ row ∈ w.rows, w.columns.length ≤ row.cells.length) :
    meltRows (appendCol w c f) = meltRows w := by
  rw [meltRows, meltRows, metaOf_appendCol hc]
  rw [List.flatMap_def, List.flatMap_def]
  congr 1
  apply List.map_congr_left
  intro m hm
  show ((appendCol w c f).rows).map _ = w.rows.map _
  rw [appendCol]
  rw [List.map_map]
  apply List.map_congr_left
  intro row hrow
  have hlt : m.idx < row.cells.length :=
    Nat.lt_of_lt_of_le (metaOf_idx_lt hm) (hwf row hrow)
  simp only [Function.comp]
  congr 1
  show (row.cells ++ [f row]).getD m.idx none = row.cells.getD m.idx none
  exact List.getD_append _ _ _ _ hlt

theorem normalizeWide_empty_of_no_match {w : WideTable} (h : metaOf w = []) :
    normalizeWide w = .ok [] := by
  have hm : meltRows w = [] := by rw [meltRows, h]; rfl
  rw [normalizeWide, hm]
  rfl

/-- C7: columns that do not match the header grammar (such as `notes` or
`2024년3월_기타_계`, whose indicator label is unrecognized) are excluded
from the long output entirely, with no error raised; when zero columns
match, the normalizer returns a well-formed empty long table instead of
raising. -/
theorem nonmatching_columns_dropped :
    headerMatch (strC "notes") = none ∧
    headerMatch (strC "2024년3월_기타_계") = none ∧
    (∀ w : WideTable, metaOf w = [] → normalizeWide w = .ok []) ∧
    (∀ (w : WideTable) (c : Name) (f : WideRow → Option Name),
      headerMatch c = none →
      (∀ row ∈ w.rows, w.columns.length ≤ row.cells.length) →
      normalizeWide (appendCol w c f) = normalizeWide w) := by
  refine ⟨by decide, by decide, fun w h => normalizeWide_empty_of_no_match h,
    fun w c f hc hwf => ?_⟩
  rw [normalizeWide, normalizeWide, meltRows_appendCol hc hwf]

theorem nonmatching_columns_dropped_witness :
    metaOf wideC7 = [] ∧
    normalizeWide wideC7 = .ok [] ∧
    headerMatch (strC "notes") = none ∧
    (∀ row ∈ wideC1.rows, wideC1.columns.length ≤ row.cells.length) ∧
    normalizeWide (appendCol wideC1 (strC "notes") (fun _ => some (strC "memo")))
      = normalizeWide wideC1 := by
  refine ⟨by decide, ?_, by decide, ?_, ?_⟩
  · exact nonmatching_columns_dropped.2.2.1 wideC7 (by decide)
  · intro row hrow
    have hr : row = ⟨some (strC "A"), [some (strC "1,234")]⟩ := by
      simpa [wideC1] using hrow
    subst hr
    decide
  · refine nonmatching_columns_dropped.2.2.2 wideC1 (strC "notes")
      (fun _ => some (strC "memo")) (by decide) ?_
    intro row hrow
    have hr : row = ⟨some (strC "A"), [some (strC "1,234")]⟩ := by
      simpa [wideC1] using hrow
    subst hr
    decide

/-! ## Keys of the grouped output come from the input rows -/

theorem insertRow_key_mem {acc : List LongRow} {x r : LongRow}
    (h : r ∈ insertRow acc x) :
    (∃ a ∈ acc, rowKey a = rowKey r) ∨ rowKey x = rowKey r := by
  rw [insertRow] at h
  by_cases hany : acc.any (fun a => decide (rowKey a = rowKey x)) = true
  · rw [if_pos hany] at h
    obtain ⟨a, ha, hmap⟩ := List.mem_map.mp h
    by_cases hk : rowKey a = rowKey x
    · rw [if_pos hk] at hmap
      left
      refine ⟨a, ha, ?_⟩
      rw [← hmap]
      rfl
    · rw [if_neg hk] at hmap
      exact Or.inl ⟨a, ha, by rw [hmap]⟩
  · rw [if_neg hany] at h
    rcases List.mem_append.mp h with h1 | h1
    · exact Or.inl ⟨r, h1, rfl⟩
    · right
      rw [List.mem_singleton.mp h1]
  
theorem foldl_insertRow_key_mem :
    ∀ {l acc : List LongRow} {r : LongRow}, r ∈ l.foldl insertRow acc →
      (∃ a ∈ acc, rowKey a = rowKey r) ∨ (∃ x ∈ l, rowKey x = rowKey r)
  | [], acc, r, h => Or.inl ⟨r, h, rfl⟩
  | x :: xs, acc, r, h => by
    rcases @foldl_insertRow_key_mem xs (insertRow acc x) r h with
      ⟨a, ha, hk⟩ | ⟨z, hz, hk⟩
    · rcases insertRow_key_mem ha with ⟨b, hb, hk2⟩ | hk2
      · exact Or.inl ⟨b, hb, hk2.trans hk⟩
      · exact Or.inr ⟨x, List.mem_cons_self x xs, hk2.trans hk⟩
    · exact Or.inr ⟨z, List.mem_cons_of_mem x hz, hk⟩

theorem rowKey_eq_date {x r : LongRow} (h : rowKey x = rowKey r) :
    x.date = r.date := by
  simp only [rowKey, Prod.mk.injEq] at h
  exact h.2.1

/-- C8: every date in the normalizer's long output is a first-of-month
timestamp: for every row of every successful normalization, the day
component equals 1. -/
theorem output_dates_first_of_month {w : WideTable} {t : List LongRow}
    (h : normalizeWide w = .ok t) : ∀ r ∈ t, r.date.day = 1 := by
  rw [normalizeWide] at h
  cases hm : mapExcept convertRow (meltRows w) with
  | error e =>
    rw [hm] at h
    exact absurd h (by simp)
  | ok rows =>
    rw [hm] at h
    have ht : groupbyMax rows = t := by
      injection h
    intro r hr
    rw [← ht, groupbyMax] at hr
    rcases foldl_insertRow_key_mem hr with ⟨a, ha, _⟩ | ⟨x, hx, hk⟩
    · exact absurd ha (List.not_mem_nil a)
    · have hx2 : x ∈ rows := List.mem_of_mem_filter hx
      obtain ⟨p, _, hp⟩ := mapExcept_ok_mem hm x hx2
      rw [← rowKey_eq_date hk]
      exact convertRow_day_one hp

unseal Rat.mul Rat.add Rat.inv in
theorem output_dates_first_of_month_witness :
    normalizeWide wideC1
      = .ok [⟨some (strC "A"), ⟨2024, 3, 1⟩, strC "인구증감", strC "계", some 1234⟩] ∧
    (⟨some (strC "A"), ⟨2024, 3, 1⟩, strC "인구증감", strC "계",
        some 1234⟩ : LongRow).date.day = 1 := by
  constructor
  · rfl
  · exact output_dates_first_of_month (w := wideC1) (by rfl) _ (by
      exact List.mem_singleton.mpr rfl)

/-! ## The skipping maximum: characterization -/

theorem optMax_eq_none {x y : Option Rat} :
    optMax x y = none ↔ x = none ∧ y = none := by
  cases x <;> cases y <;> simp [optMax]

theorem optMax_mem {x y : Option Rat} {q : Rat} (h : optMax x y = some q) :
    x = some q ∨ y = some q := by
  cases x with
  | none => exact Or.inr (by simpa [optMax] using h)
  | some a =>
    cases y with
    | none => exact Or.inl (by simpa [optMax] using h)
    | some b =>
      simp only [optMax, Option.some.injEq] at h
      rcases max_choice a b with hm | hm
      · exact Or.inl (by rw [← h, hm])
      · exact Or.inr (by rw [← h, hm])

theorem optMax_ge_left {x y : Option Rat} {a : Rat} (h : x = some a) :
    ∃ c, optMax x y = some c ∧ a ≤ c := by
  subst h
  cases y with
  | none => exact ⟨a, rfl, le_refl a⟩
  | some b => exact ⟨max a b, rfl, le_max_left a b⟩

theorem optMax_ge_right {x y : Option Rat} {b : Rat} (h : y = some b) :
    ∃ c, optMax x y = some c ∧ b ≤ c := by
  subst h
  cases x with
  | none => exact ⟨b, rfl, le_refl b⟩
  | some a => exact ⟨max a b, rfl, le_max_right a b⟩

theorem foldl_optMax_none_iff :
    ∀ (vs : List (Option Rat)) (i : Option Rat),
      vs.foldl optMax i = none ↔ i = none ∧ ∀ v ∈ vs, v = none
  | [], i => by simp
  | v :: vs, i => by
    rw [List.foldl_cons, foldl_optMax_none_iff vs (optMax i v), optMax_eq_none,
      List.forall_mem_cons]
    tauto

theorem foldl_optMax_some :
    ∀ (vs : List (Option Rat)) (i : Option Rat) (q : Rat),
      vs.foldl optMax i = some q →
      (some q ∈ vs ∨ i = some q) ∧
      (∀ a : Rat, some a ∈ vs → a ≤ q) ∧ (∀ a : Rat, i = some a → a ≤ q)
  | [], i, q, h => by
    have hi : i = some q := h
    refine ⟨Or.inr hi, fun a ha => absurd ha (by simp), fun a ha => ?_⟩
    rw [hi] at ha
    cases ha
    exact le_refl q
  | v :: vs, i, q, h => by
    rw [List.foldl_cons] at h
    obtain ⟨h1, h2, h3⟩ := foldl_optMax_some vs (optMax i v) q h
    refine ⟨?_, ?_, ?_⟩
    · rcases h1 with h1 | h1
      · exact Or.inl (List.mem_cons_of_mem v h1)
      · rcases optMax_mem h1 with hm | hm
        · exact Or.inr hm
        · exact Or.inl (hm ▸ List.mem_cons_self v vs)
    · intro a ha
      rcases List.mem_cons.mp ha with hv | hv
      · obtain ⟨c, hc, hac⟩ := optMax_ge_right hv.symm
        exact le_trans hac (h3 c hc)
      · exact h2 a hv
    · intro a ha
      obtain ⟨c, hc, hac⟩ := optMax_ge_left ha
      exact le_trans hac (h3 c hc)

/-! ## Grouping: key uniqueness and the per-key maximum -/

theorem rowKey_update {a : LongRow} {v : Option Rat} :
    rowKey { a with value := v } = rowKey a := rfl

theorem insertRow_keys_update {acc : List LongRow} {x : LongRow}
    (h : acc.any (fun a => decide (rowKey a = rowKey x)) = true) :
    (insertRow acc x).map rowKey = acc.map rowKey := by
  rw [insertRow, if_pos h, List.map_map]
  apply List.map_congr_left
  intro a _
  by_cases hk : rowKey a = rowKey x
  · simp only [Function.comp, if_pos hk]
    rfl
  · simp only [Function.comp, if_neg hk]

theorem insertRow_keys_append {acc : List LongRow} {x : LongRow}
    (h : ¬ acc.any (fun a => decide (rowKey a = rowKey x)) = true) :
    (insertRow acc x).map rowKey = acc.map rowKey ++ [rowKey x] := by
  rw [insertRow, if_neg h, List.map_append]
  rfl

theorem insertRow_nodup {acc : List LongRow} {x : LongRow}
    (h : (acc.map rowKey).Nodup) : ((insertRow acc x).map rowKey).Nodup := by
  by_cases hany : acc.any (fun a => decide (rowKey a = rowKey x)) = true
  · rw [insertRow_keys_update hany]
    exact h
  · rw [insertRow_keys_append hany]
    have hnot : rowKey x ∉ acc.map rowKey := by
      intro hmem
      obtain ⟨a, ha, hk⟩ := List.mem_map.mp hmem
      exact hany (List.any_eq_true.mpr ⟨a, ha, by simp [hk]⟩)
    rw [List.nodup_append]
    exact ⟨h, List.nodup_singleton _, by simpa [List.disjoint_left] using hnot⟩

theorem foldl_insertRow_nodup :
    ∀ {l acc : List LongRow}, (acc.map rowKey).Nodup →
      ((l.foldl insertRow acc).map rowKey).Nodup
  | [], _, h => h
  | x :: xs, acc, h =>
    @foldl_insertRow_nodup xs (insertRow acc x) (insertRow_nodup h)

theorem groupbyMax_nodup (l : List LongRow) :
    ((groupbyMax l).map rowKey).Nodup :=
  foldl_insertRow_nodup (by simp)

theorem insertRow_find_same {acc : List LongRow} {x : LongRow}
    {k : Option Name × MDate × Name × Name} (hxk : rowKey x = k) :
    (insertRow acc x).find? (fun a => decide (rowKey a = k))
      = match acc.find? (fun a => decide (rowKey a = k)) with
        | some a => some { a with value := optMax a.value x.value }
        | none => some x := by
  subst hxk
  by_cases hany : acc.any (fun a => decide (rowKey a = rowKey x)) = true
  · rw [insertRow, if_pos hany, List.find?_map]
    have hpf : ((fun a => decide (rowKey a = rowKey x)) ∘
        (fun a => if rowKey a = rowKey x
          then { a with value := optMax a.value x.value } else a))
        = fun a => decide (rowKey a = rowKey x) := by
      funext a
      by_cases hk : rowKey a = rowKey x
      · simp [Function.comp, hk, rowKey_update]
      · simp [Function.comp, hk]
    rw [hpf]
    cases hfind : acc.find? (fun a => decide (rowKey a = rowKey x)) with
    | some a =>
      have hk : rowKey a = rowKey x := by simpa using List.find?_some hfind
      simp only [Option.map_some', if_pos hk]
    | none =>
      exfalso
      obtain ⟨a, ha, hk⟩ := List.any_eq_true.mp hany
      have := List.find?_eq_none.mp hfind a ha
      exact this hk
  · rw [insertRow, if_neg hany, List.find?_append]
    have hfind : acc.find? (fun a => decide (rowKey a = rowKey x)) = none := by
      rw [List.find?_eq_none]
      intro a ha hk
      exact hany (List.any_eq_true.mpr ⟨a, ha, hk⟩)
    rw [hfind]
    simp

theorem insertRow_find_other {acc : List LongRow} {x : LongRow}
    {k : Option Name × MDate × Name × Name} (hxk : ¬ rowKey x = k) :
    (insertRow acc x).find? (fun a => decide (rowKey a = k))
      = acc.find? (fun a => decide (rowKey a = k)) := by
  by_cases hany : acc.any (fun a => decide (rowKey a = rowKey x)) = true
  · rw [insertRow, if_pos hany, List.find?_map]
    have hpf : ((fun a => decide (rowKey a = k)) ∘
        (fun a => if rowKey a = rowKey x
          then { a with value := optMax a.value x.value } else a))
        = fun a => decide (rowKey a = k) := by
      funext a
      by_cases hk : rowKey a = rowKey x
      · simp [Function.comp, hk, rowKey_update]
      · simp [Function.comp, hk]
    rw [hpf]
    cases hfind : acc.find? (fun a => decide (rowKey a = k)) with
    | some a =>
      have hk : rowKey a = k := by simpa using List.find?_some hfind
      have hne : ¬ rowKey a = rowKey x := fun hc => hxk (hc ▸ hk)
      simp only [Option.map_some', if_neg hne]
    | none => simp
  · rw [insertRow, if_neg hany, List.find?_append]
    have hsing : ([x].find? (fun a => decide (rowKey a = k))) = none := by
      simp [hxk]
    rw [hsing, Option.or_none]

theorem foldl_insertRow_find (k : Option Name × MDate × Name × Name) :
    ∀ (l acc : List LongRow),
      ((l.foldl insertRow acc).find? (fun a => decide (rowKey a = k))).map
          LongRow.value
      = match acc.find? (fun a => decide (rowKey a = k)) with
        | some a => some
            (((l.filter fun x => decide (rowKey x = k)).map LongRow.value).foldl
              optMax a.value)
        | none =>
          if (l.filter fun x => decide (rowKey x = k)) = [] then none
          else some
            (((l.filter fun x => decide (rowKey x = k)).map LongRow.value).foldl
              optMax none)
  | [], acc => by
    cases hf : acc.find? (fun a => decide (rowKey a = k)) with
    | some a => simp [hf]
    | none => simp [hf]
  | x :: l, acc => by
    by_cases hxk : rowKey x = k
    · have hfilter : ((x :: l).filter fun y => decide (rowKey y = k))
          = x :: (l.filter fun y => decide (rowKey y = k)) := by
        simp [List.filter_cons, hxk]
      have hstep := foldl_insertRow_find k l (insertRow acc x)
      rw [List.foldl_cons, hstep, insertRow_find_same hxk]
      cases hf : acc.find? (fun a => decide (rowKey a = k)) with
      | some a =>
        rw [hfilter]
        simp only [List.map_cons, List.foldl_cons]
      | none =>
        rw [hfilter]
        simp only [List.map_cons, List.foldl_cons]
        rw [if_neg (List.cons_ne_nil x _)]
        rfl
    · have hfilter : ((x :: l).filter fun y => decide (rowKey y = k))
          = l.filter fun y => decide (rowKey y = k) := by
        simp [List.filter_cons, hxk]
      have hstep := foldl_insertRow_find k l (insertRow acc x)
      rw [List.foldl_cons, hstep, insertRow_find_other hxk, hfilter]

theorem mem_find?_of_nodup {t : List LongRow} {r : LongRow}
    (hmem : r ∈ t) (hnd : (t.map rowKey).Nodup) :
    t.find? (fun a => decide (rowKey a = rowKey r)) = some r := by
  induction t with
  | nil => cases hmem
  | cons a t ih =>
    have hnd2 : rowKey a ∉ t.map rowKey ∧ (t.map rowKey).Nodup := by
      rw [List.map_cons] at hnd
      exact List.nodup_cons.mp hnd
    by_cases hk : rowKey a = rowKey r
    · have har : a = r := by
        rcases List.mem_cons.mp hmem with h | h
        · exact h.symm
        · exfalso
          have hkr : rowKey r ∈ t.map rowKey := List.mem_map.mpr ⟨r, h, rfl⟩
          exact hnd2.1 (hk ▸ hkr)
      rw [List.find?_cons_of_pos _ (by simp [hk]), har]
    · have hrt : r ∈ t := by
        rcases List.mem_cons.mp hmem with h | h
        · exact absurd (by rw [h] : rowKey a = rowKey r) hk
        · exact h
      rw [List.find?_cons_of_neg _ (by simp [hk])]
      exact ih hrt hnd2.2

theorem groupbyMax_value {l : List LongRow} {r : LongRow} (hr : r ∈ groupbyMax l) :
    r.value = ((l.filter fun x => decide (rowKey x = rowKey r)
        && x.region.isSome).map LongRow.value).foldl optMax none := by
  have hfind : (groupbyMax l).find? (fun a => decide (rowKey a = rowKey r)) = some r :=
    mem_find?_of_nodup hr (groupbyMax_nodup l)
  have hmain := foldl_insertRow_find (rowKey r) (l.filter fun x => x.region.isSome) []
  rw [groupbyMax] at hfind
  rw [hfind] at hmain
  simp only [List.find?_nil] at hmain
  rw [List.filter_filter] at hmain
  by_cases hemp : (l.filter fun x =>
      decide (rowKey x = rowKey r) && x.region.isSome) = []
  · rw [if_pos hemp] at hmain
    cases hmain
  · rw [if_neg hemp] at hmain
    exact Option.some.inj hmain

/-- C2: for every wide input, the normalizer's output has at most one row
per (standardizedRegion, date, indicator, sex) key; the value of each
output row is the skipping maximum of the values reshaped to that key
(nulls ignored, null only when every value of the group is null): the
fold result is none exactly when all the group's values are none, and
otherwise it is a member of the group that bounds every non-null member
from above. -/
theorem normalize_dedup_max {w : WideTable} {rows t : List LongRow}
    (hpre : mapExcept convertRow (meltRows w) = .ok rows)
    (ht : normalizeWide w = .ok t) :
    (t.map rowKey).Nodup ∧
    (∀ r ∈ t, r.value
      = ((rows.filter fun x => decide (rowKey x = rowKey r)
          && x.region.isSome).map LongRow.value).foldl optMax none) ∧
    (∀ vs : List (Option Rat),
      (vs.foldl optMax none = none ↔ ∀ v ∈ vs, v = none) ∧
      (∀ q : Rat, vs.foldl optMax none = some q →
        some q ∈ vs ∧ ∀ a : Rat, some a ∈ vs → a ≤ q)) := by
  have ht2 : groupbyMax rows = t := by
    rw [normalizeWide, hpre] at ht
    injection ht
  subst ht2
  refine ⟨groupbyMax_nodup rows, fun r hr => groupbyMax_value hr, fun vs => ⟨?_, ?_⟩⟩
  · rw [foldl_optMax_none_iff]
    simp
  · intro q h
    obtain ⟨h1, h2, _⟩ := foldl_optMax_some vs none q h
    rcases h1 with h1 | h1
    · exact ⟨h1, h2⟩
    · cases h1

unseal Rat.mul Rat.add Rat.inv in
theorem normalize_dedup_max_witness :
    mapExcept convertRow (meltRows wideC2)
      = .ok [⟨some (strC "A"), ⟨2024, 3, 1⟩, strC "인구증감", strC "계", some 10⟩,
             ⟨some (strC "A"), ⟨2024, 3, 1⟩, strC "인구증감", strC "계", some 20⟩] ∧
    normalizeWide wideC2
      = .ok [⟨some (strC "A"), ⟨2024, 3, 1⟩, strC "인구증감", strC "계", some 20⟩] ∧
    (([⟨some (strC "A"), ⟨2024, 3, 1⟩, strC "인구증감", strC "계", some 20⟩]
        : List LongRow).map rowKey).Nodup := by
  refine ⟨by rfl, by rfl, ?_⟩
  exact (@normalize_dedup_max wideC2
    [⟨some (strC "A"), ⟨2024, 3, 1⟩, strC "인구증감", strC "계", some 10⟩,
     ⟨some (strC "A"), ⟨2024, 3, 1⟩, strC "인구증감", strC "계", some 20⟩]
    [⟨some (strC "A"), ⟨2024, 3, 1⟩, strC "인구증감", strC "계", some 20⟩]
    (by rfl) (by rfl)).1

/-! ## Null propagation through the aggregations -/

/-- C3 counterexample: the national time-series total
(`groupby("date")["value"].sum()`) over a date group whose only value is
null yields `0`, not null — pandas `GroupBy.sum` with its default
`min_count = 0` returns `0.0` on an all-`NaN` group, so a null group does
NOT propagate null through the sum. -/
theorem all_null_group_sums_to_zero :
    (⟨some (strC "A"), ⟨2024, 3, 1⟩, strC "인구증감", strC "계", none⟩
        : LongRow).value = none ∧
    groupSumByDate longAllNull = [(⟨2024, 3, 1⟩, some 0)] ∧
    some (0 : Rat) ≠ (none : Option Rat) := by
  refine ⟨rfl, by rfl, by simp⟩

/-- C3 amended: the max aggregation used for deduplication yields null on
an all-null group, but the national time-series sum yields 0 — a present
number, not null — on a date group whose values are all null. -/
theorem all_null_aggregation_behaviour :
    (∀ vs : List (Option Rat), (∀ v ∈ vs, v = none) →
      vs.foldl optMax none = none) ∧
    (∀ (l : List LongRow) (d : MDate) (v : Option Rat),
      (d, v) ∈ groupSumByDate l →
      (∀ r ∈ l, r.date = d → r.value = none) →
      v = some 0) := by
  constructor
  · intro vs h
    rw [foldl_optMax_none_iff]
    exact ⟨rfl, h⟩
  · intro l d v hmem hnull
    rw [groupSumByDate] at hmem
    obtain ⟨d2, _, heq⟩ := List.mem_map.mp hmem
    rw [Prod.mk.injEq] at heq
    obtain ⟨hd, hv⟩ := heq
    subst hd
    have hnil : (l.filter fun r => decide (r.date = d2)).filterMap LongRow.value
        = [] := by
      rw [List.filterMap_eq_nil_iff]
      intro r hr
      have h1 : r ∈ l := List.mem_of_mem_filter hr
      have h2 : r.date = d2 := by simpa using List.of_mem_filter hr
      exact hnull r h1 h2
    rw [← hv, hnil]
    rfl

theorem all_null_aggregation_behaviour_witness :
    [(none : Option Rat)].foldl optMax none = none ∧
    (some (0 : Rat) : Option Rat) = some 0 := by
  refine ⟨all_null_aggregation_behaviour.1 [none] ?_,
    all_null_aggregation_behaviour.2 longAllNull ⟨2024, 3, 1⟩ (some 0) ?_ ?_⟩
  · intro v hv
    simpa using hv
  · show (⟨2024, 3, 1⟩, some (0 : Rat)) ∈ groupSumByDate longAllNull
    decide
  · decide
